import Mathlib

/-!
Verification development for the pyNBS pipeline (network-based stratification).

The repository snapshot contains the two driver notebooks
(`CancerSubnetwork_COAD_pyNBS_Notebook.ipynb` and
`Cancer Subnetwork Construction.ipynb`).  The pyNBS library modules they call
(`network_propagation.py`, `pyNBS_core.py`, `pyNBS_single.py`,
`consensus_clustering.py`) are not part of the snapshot; where a claim depends
on them, the corresponding definition below is modelled from the
natural-language specification (and, for `network_kernel_propagation`, from the
library source line recorded in the notebook's error traceback).  Floating
point arithmetic is embedded as exact arithmetic over `ℚ`, so "within floating
tolerance" statements become exact equalities.
-/

namespace PyNBS

/-! ### Graph model

The molecular network is an undirected, unweighted simple graph over gene
identifiers; we index genes by `Fin n` and keep the adjacency as a boolean
matrix.  Symmetry (undirectedness) is a hypothesis of the theorems that need
it, mirroring the file-format contract of `load_network_file`. -/

variable {n p : ℕ}

/-- Degree of gene `i`: the number of its neighbours in the network. -/
def deg (adjb : Fin n → Fin n → Bool) (i : Fin n) : ℕ :=
  (Finset.univ.filter fun j => adjb i j = true).card

/-- Modelled from the spec: the degree-normalized adjacency used by
`network_propagation` with `symmetric_norm=False` (row-normalized: each entry
of a row with degree `d` is `1/d` on neighbours, `0` elsewhere). -/
def rowNormAdj (adjb : Fin n → Fin n → Bool) : Matrix (Fin n) (Fin n) ℚ :=
  Matrix.of fun i j => if adjb i j = true then ((deg adjb i : ℚ))⁻¹ else 0

@[simp] lemma rowNormAdj_apply (adjb : Fin n → Fin n → Bool) (i j : Fin n) :
    rowNormAdj adjb i j = if adjb i j = true then ((deg adjb i : ℚ))⁻¹ else 0 := rfl

/-- Modelled from the spec: `network_propagation`'s random-walk-with-restart
recurrence `F_{t+1} = alpha * F_t * A_norm + (1 - alpha) * F_0` on a
patients-by-genes signal matrix `S` (`pyNBS.network_propagation` is not in the
repository snapshot; the recurrence is the one stated in the Propagation
Engine contract, run for `t` steps). -/
def network_propagation (al : ℚ) (A : Matrix (Fin n) (Fin n) ℚ)
    (S : Matrix (Fin p) (Fin n) ℚ) : ℕ → Matrix (Fin p) (Fin n) ℚ
  | 0 => S
  | t + 1 => al • (network_propagation al A S t * A) + (1 - al) • S

/-- The identity signal matrix of the network, as built in the notebook cell
`network_I = pd.DataFrame(np.identity(len(network_nodes)), ...)`. -/
def network_I (n : ℕ) : Matrix (Fin n) (Fin n) ℚ := 1

/-- The propagation kernel, built exactly as the notebook does:
`kernel = prop.network_propagation(network, network_I, alpha, symmetric_norm=False)`. -/
def propagation_kernel (adjb : Fin n → Fin n → Bool) (al : ℚ) (t : ℕ) :
    Matrix (Fin n) (Fin n) ℚ :=
  network_propagation al (rowNormAdj adjb) (network_I n) t

/-- Linearity of the iterative propagation: propagating any signal for `t`
steps equals a single multiplication of the signal with the `t`-step kernel. -/
lemma network_propagation_eq_mul_kernel (al : ℚ) (A : Matrix (Fin n) (Fin n) ℚ)
    (S : Matrix (Fin p) (Fin n) ℚ) (t : ℕ) :
    network_propagation al A S t = S * network_propagation al A (1) t := by
  induction t with
  | zero => simp [network_propagation]
  | succ t ih =>
    simp only [network_propagation, Matrix.mul_add, Matrix.mul_smul, Matrix.mul_one,
      Matrix.mul_assoc, ih]

/-! ### Connected components and cross-component separation

`network_kernel_propagation` in the source splits the network into connected
components (`subgraph_nodelists`, produced by the external graph library) and
propagates each component independently.  We model a component structurally:
a set of genes closed under adjacency.  Two genes lie in different connected
components exactly when some adjacency-closed set contains one but not the
other. -/

/-- A predicate on genes is adjacency-closed when no edge leaves it. -/
def AdjClosed (adjb : Fin n → Fin n → Bool) (P : Fin n → Prop) : Prop :=
  ∀ x y, P x → adjb x y = true → P y

/-- Whenever an adjacency-closed set contains `u` but not `v`, every kernel
entry from `u` to `v` is zero: the random-walk recurrence only ever moves mass
along edges, and no edge leaves the closed set. -/
lemma propagation_kernel_eq_zero_of_closed (adjb : Fin n → Fin n → Bool) (al : ℚ)
    (P : Fin n → Prop) (hP : AdjClosed adjb P) (t : ℕ) (u v : Fin n)
    (hu : P u) (hv : ¬ P v) :
    propagation_kernel adjb al t u v = 0 := by
  induction t generalizing v with
  | zero =>
    have huv : u ≠ v := fun h => hv (h ▸ hu)
    simp [propagation_kernel, network_propagation, network_I, Matrix.one_apply, huv]
  | succ t ih =>
    have huv : u ≠ v := fun h => hv (h ▸ hu)
    simp only [propagation_kernel, network_propagation] at ih ⊢
    simp only [Matrix.add_apply, Matrix.smul_apply, Matrix.mul_apply, network_I,
      Matrix.one_apply, huv, if_false, smul_zero, add_zero, smul_eq_mul]
    have hsum : ∑ x : Fin n,
        network_propagation al (rowNormAdj adjb) (1 : Matrix (Fin n) (Fin n) ℚ) t u x
          * rowNormAdj adjb x v = 0 := by
      refine Finset.sum_eq_zero fun x _ => ?_
      by_cases hx : P x
      · have hxv : adjb x v ≠ true := fun h => hv (hP x v hx h)
        simp [rowNormAdj_apply, hxv]
      · have := ih x hx
        simp only [network_I] at this
        simp [this]
    rw [hsum, mul_zero, mul_zero, add_zero]

/-- The complement of an adjacency-closed set is adjacency-closed when the
adjacency relation is symmetric (undirected network). -/
lemma adjClosed_compl (adjb : Fin n → Fin n → Bool)
    (hsym : ∀ u v, adjb u v = adjb v u) (P : Fin n → Prop)
    (hP : AdjClosed adjb P) : AdjClosed adjb (fun x => ¬ P x) := by
  intro x y hx hxy hy
  exact hx (hP y x hy (by rw [hsym y x]; exact hxy))

/-- The connected component containing `u`, looked up in the list of
per-component node sets (the first one containing `u`, mirroring the
`subgraph_nodelists` iteration of the source). -/
def compOf (comps : List (Finset (Fin n))) (u : Fin n) : Finset (Fin n) :=
  (comps.find? fun c => decide (u ∈ c)).getD ∅

lemma compOf_mem (comps : List (Finset (Fin n))) (u : Fin n)
    (hcover : ∃ c ∈ comps, u ∈ c) :
    compOf comps u ∈ comps ∧ u ∈ compOf comps u := by
  induction comps with
  | nil => obtain ⟨c, hc, _⟩ := hcover; exact absurd hc (List.not_mem_nil c)
  | cons c rest ih =>
    by_cases hu : u ∈ c
    · simp [compOf, List.find?_cons, hu]
    · have h1 : compOf (c :: rest) u = compOf rest u := by
        simp [compOf, List.find?_cons, hu]
      obtain ⟨d, hd, hud⟩ := hcover
      rcases List.mem_cons.mp hd with h | h
      · exact absurd (h ▸ hud) hu
      · have := ih ⟨d, h, hud⟩
        exact ⟨h1 ▸ List.mem_cons_of_mem c this.1, h1 ▸ this.2⟩

/-- Modelled from the spec and the source line recorded in the notebook
traceback (`network_propagation.py` line 97): kernel propagation restricts the
signal and the kernel to each connected component, multiplies
(`signal_matrix^T . kernel` per component), and re-assembles the blocks.  The
entry of the result at patient `pt` and gene `u` is the component-restricted
product; genes covered by no node list get the empty-component sum. -/
def network_kernel_propagation (comps : List (Finset (Fin n)))
    (K : Matrix (Fin n) (Fin n) ℚ) (S : Matrix (Fin p) (Fin n) ℚ) :
    Matrix (Fin p) (Fin n) ℚ :=
  Matrix.of fun pt u => ∑ w in compOf comps u, S pt w * K w u

/-- A one-patient signal that marks exactly the gene `u` as mutated. -/
def indicatorRow (u : Fin n) : Matrix (Fin 1) (Fin n) ℚ :=
  Matrix.of fun _ w => if w = u then 1 else 0

end PyNBS

namespace PyNBS

variable {n p : ℕ}

/-- C2: for every (undirected) graph, every alpha, and every signal matrix,
propagating the signal via the precomputed kernel — a single per-connected-
component multiplication `signal_matrix^T . kernel`, re-assembled over the
component node lists — equals running the full iterative random-walk-with-
restart propagation on that signal (exactly, over `ℚ`; the two computations
use the same step count `t`). -/
theorem kernel_propagation_eq_iterative (adjb : Fin n → Fin n → Bool) (al : ℚ)
    (comps : List (Finset (Fin n)))
    (hsym : ∀ u v, adjb u v = adjb v u)
    (hclosed : ∀ c ∈ comps, ∀ x ∈ c, ∀ y, adjb x y = true → y ∈ c)
    (hcover : ∀ u : Fin n, ∃ c ∈ comps, u ∈ c)
    (t : ℕ) (S : Matrix (Fin p) (Fin n) ℚ) :
    network_kernel_propagation comps (propagation_kernel adjb al t) S
      = network_propagation al (rowNormAdj adjb) S t := by
  ext pt u
  obtain ⟨hcmem, hucomp⟩ := compOf_mem comps u (hcover u)
  have hCclosed : AdjClosed adjb (fun x => x ∈ compOf comps u) :=
    fun x y hx hxy => hclosed _ hcmem x hx y hxy
  have hcompl : AdjClosed adjb (fun x => ¬ x ∈ compOf comps u) :=
    adjClosed_compl adjb hsym _ hCclosed
  have hfull : ∑ w in compOf comps u, S pt w * propagation_kernel adjb al t w u
      = ∑ w : Fin n, S pt w * propagation_kernel adjb al t w u := by
    refine Finset.sum_subset (Finset.subset_univ _) fun w _ hw => ?_
    have hzero : propagation_kernel adjb al t w u = 0 :=
      propagation_kernel_eq_zero_of_closed adjb al _ hcompl t w u hw
        (not_not_intro hucomp)
    rw [hzero, mul_zero]
  have hmul := network_propagation_eq_mul_kernel al (rowNormAdj adjb) S t
  calc network_kernel_propagation comps (propagation_kernel adjb al t) S pt u
      = ∑ w : Fin n, S pt w * propagation_kernel adjb al t w u := hfull
    _ = (S * network_propagation al (rowNormAdj adjb)
          ((1 : Matrix (Fin n) (Fin n) ℚ)) t) pt u := by
        rw [Matrix.mul_apply]; rfl
    _ = network_propagation al (rowNormAdj adjb) S t pt u := by
        rw [← hmul]

/-- C2 witness: a concrete disconnected 4-gene graph (edges 0-1 and 2-3),
a concrete 2-patient signal, alpha = 7/10, two propagation steps. -/
def exAdj4 : Fin 4 → Fin 4 → Bool := fun i j =>
  (i = 0 && j = 1) || (i = 1 && j = 0) || (i = 2 && j = 3) || (i = 3 && j = 2)

/-- Component node lists of `exAdj4`: genes {0,1} and genes {2,3}. -/
def exComps4 : List (Finset (Fin 4)) := [{0, 1}, {2, 3}]

/-- A concrete 2-patient signal matrix over the 4 genes. -/
def exSig4 : Matrix (Fin 2) (Fin 4) ℚ :=
  Matrix.of fun pt w => ((pt : ℚ) + 1) * ((w : ℚ) + 1)

theorem kernel_propagation_eq_iterative_witness :
    network_kernel_propagation exComps4 (propagation_kernel exAdj4 (7/10) 2) exSig4
      = network_propagation (7/10) (rowNormAdj exAdj4) exSig4 2 :=
  kernel_propagation_eq_iterative exAdj4 (7/10) exComps4
    (by decide) (by decide) (by decide) 2 exSig4

/-- C4: on a graph with several connected components — witnessed structurally
by an adjacency-closed gene set `C` containing `u` but not `v`, so that `u`
and `v` lie in different components — the propagated influence of `u` on `v`
is exactly zero: both kernel entries between the two genes vanish, and
propagating a signal that mutates exactly `u` leaves exactly `0` at `v`. -/
theorem cross_component_influence_zero (adjb : Fin n → Fin n → Bool) (al : ℚ)
    (C : Finset (Fin n)) (t : ℕ) (u v : Fin n)
    (hsym : ∀ a b, adjb a b = adjb b a)
    (hC : ∀ x ∈ C, ∀ y, adjb x y = true → y ∈ C)
    (hu : u ∈ C) (hv : v ∉ C) :
    propagation_kernel adjb al t u v = 0
      ∧ propagation_kernel adjb al t v u = 0
      ∧ network_propagation al (rowNormAdj adjb) (indicatorRow u) t 0 v = 0 := by
  have hCclosed : AdjClosed adjb (fun x => x ∈ C) := fun x y hx hxy => hC x hx y hxy
  have hcompl : AdjClosed adjb (fun x => ¬ x ∈ C) := adjClosed_compl adjb hsym _ hCclosed
  have h1 : propagation_kernel adjb al t u v = 0 :=
    propagation_kernel_eq_zero_of_closed adjb al _ hCclosed t u v hu hv
  have h2 : propagation_kernel adjb al t v u = 0 :=
    propagation_kernel_eq_zero_of_closed adjb al _ hcompl t v u hv (not_not_intro hu)
  refine ⟨h1, h2, ?_⟩
  have hmul := network_propagation_eq_mul_kernel al (rowNormAdj adjb) (indicatorRow u) t
  have : network_propagation al (rowNormAdj adjb) (indicatorRow u) t 0 v
      = ∑ w : Fin n, indicatorRow u 0 w
          * network_propagation al (rowNormAdj adjb) ((1 : Matrix (Fin n) (Fin n) ℚ)) t w v := by
    rw [hmul, Matrix.mul_apply]
  rw [this]
  have hone : ∑ w : Fin n, indicatorRow u 0 w
      * network_propagation al (rowNormAdj adjb) ((1 : Matrix (Fin n) (Fin n) ℚ)) t w v
      = network_propagation al (rowNormAdj adjb) ((1 : Matrix (Fin n) (Fin n) ℚ)) t u v := by
    simp [indicatorRow, ite_mul, Finset.sum_ite_eq]
  rw [hone]
  simpa [propagation_kernel, network_I] using h1

theorem cross_component_influence_zero_witness :
    propagation_kernel exAdj4 (7/10) 2 0 2 = 0
      ∧ propagation_kernel exAdj4 (7/10) 2 2 0 = 0
      ∧ network_propagation (7/10) (rowNormAdj exAdj4) (indicatorRow 0) 2 0 2 = 0 :=
  cross_component_influence_zero exAdj4 (7/10) {0, 1} 2 0 2
    (by decide) (by decide) (by decide) (by decide)

/-! ### Kernel stochasticity (claim C3) -/

/-- Each row of the row-normalized adjacency sums to `1`, provided the row's
gene has at least one neighbour. -/
lemma rowNormAdj_row_sum (adjb : Fin n → Fin n → Bool) (i : Fin n)
    (hdeg : 0 < deg adjb i) : ∑ j : Fin n, rowNormAdj adjb i j = 1 := by
  simp only [rowNormAdj_apply]
  rw [← Finset.sum_filter, Finset.sum_const, nsmul_eq_mul]
  have hcard : ((Finset.univ.filter fun j => adjb i j = true).card : ℚ) = (deg adjb i : ℚ) := by
    rw [deg]
  rw [hcard, mul_inv_cancel₀]
  exact_mod_cast hdeg.ne'

/-- Every entry of the row-normalized adjacency is non-negative. -/
lemma rowNormAdj_nonneg (adjb : Fin n → Fin n → Bool) (i j : Fin n) :
    0 ≤ rowNormAdj adjb i j := by
  rw [rowNormAdj_apply]
  split
  · exact inv_nonneg.mpr (Nat.cast_nonneg _)
  · exact le_refl 0

lemma propagation_kernel_nonneg (adjb : Fin n → Fin n → Bool) (al : ℚ)
    (hal0 : 0 ≤ al) (hal1 : al ≤ 1) (t : ℕ) (i j : Fin n) :
    0 ≤ propagation_kernel adjb al t i j := by
  induction t generalizing i j with
  | zero =>
    simp only [propagation_kernel, network_propagation, network_I, Matrix.one_apply]
    split <;> norm_num
  | succ t ih =>
    simp only [propagation_kernel, network_propagation, network_I] at ih ⊢
    simp only [Matrix.add_apply, Matrix.smul_apply, smul_eq_mul, Matrix.mul_apply]
    have h1 : 0 ≤ ∑ x : Fin n,
        network_propagation al (rowNormAdj adjb) (1 : Matrix (Fin n) (Fin n) ℚ) t i x
          * rowNormAdj adjb x j :=
      Finset.sum_nonneg fun x _ => mul_nonneg (ih i x) (rowNormAdj_nonneg adjb x j)
    have h2 : (0 : ℚ) ≤ (1 : Matrix (Fin n) (Fin n) ℚ) i j := by
      rw [Matrix.one_apply]; split <;> norm_num
    have h3 : 0 ≤ (1 - al) * (1 : Matrix (Fin n) (Fin n) ℚ) i j :=
      mul_nonneg (by linarith) h2
    exact add_nonneg (mul_nonneg hal0 h1) h3

lemma propagation_kernel_row_sum (adjb : Fin n → Fin n → Bool) (al : ℚ)
    (hdeg : ∀ x, 0 < deg adjb x) (t : ℕ) (i : Fin n) :
    ∑ j : Fin n, propagation_kernel adjb al t i j = 1 := by
  induction t with
  | zero =>
    simp [propagation_kernel, network_propagation, network_I, Matrix.one_apply]
  | succ t ih =>
    simp only [propagation_kernel, network_propagation, network_I] at ih ⊢
    simp only [Matrix.add_apply, Matrix.smul_apply, smul_eq_mul]
    rw [Finset.sum_add_distrib, ← Finset.mul_sum, ← Finset.mul_sum]
    have h1 : ∑ j : Fin n,
        ((network_propagation al (rowNormAdj adjb) (1 : Matrix (Fin n) (Fin n) ℚ) t)
            * rowNormAdj adjb) i j = 1 := by
      simp only [Matrix.mul_apply]
      rw [Finset.sum_comm]
      have hx : ∀ x : Fin n, ∑ j : Fin n,
          network_propagation al (rowNormAdj adjb) (1 : Matrix (Fin n) (Fin n) ℚ) t i x
            * rowNormAdj adjb x j
          = network_propagation al (rowNormAdj adjb) (1 : Matrix (Fin n) (Fin n) ℚ) t i x :=
        fun x => by rw [← Finset.mul_sum, rowNormAdj_row_sum adjb x (hdeg x), mul_one]
      rw [Finset.sum_congr rfl fun x _ => hx x, ih]
    have h2 : ∑ j : Fin n, (1 : Matrix (Fin n) (Fin n) ℚ) i j = 1 := by
      simp [Matrix.one_apply]
    rw [h1, h2]
    ring

/-- C3: for every valid network (every gene has at least one neighbour, as
guaranteed for edge-list-loaded networks) and every alpha in `[0,1]`, the
kernel built by propagating the identity matrix (`network_propagation` applied
to `network_I` with row normalization, `symmetric_norm=False`) has only
non-negative entries, and each of its rows sums to exactly `1` (exactly over
`ℚ`, which is the "within floating tolerance" statement). -/
theorem build_kernel_nonneg_rows_sum_one (adjb : Fin n → Fin n → Bool) (al : ℚ)
    (hal0 : 0 ≤ al) (hal1 : al ≤ 1) (hdeg : ∀ x, 0 < deg adjb x)
    (t : ℕ) (i j : Fin n) :
    0 ≤ propagation_kernel adjb al t i j
      ∧ ∑ j2 : Fin n, propagation_kernel adjb al t i j2 = 1 :=
  ⟨propagation_kernel_nonneg adjb al hal0 hal1 t i j,
   propagation_kernel_row_sum adjb al hdeg t i⟩

/-- C3 witness graph: the 3-gene path 0-1-2 (every gene has a neighbour). -/
def exAdjPath : Fin 3 → Fin 3 → Bool := fun i j =>
  (i = 0 && j = 1) || (i = 1 && j = 0) || (i = 1 && j = 2) || (i = 2 && j = 1)

theorem build_kernel_nonneg_rows_sum_one_witness :
    0 ≤ propagation_kernel exAdjPath (7/10) 2 0 2
      ∧ ∑ j2 : Fin 3, propagation_kernel exAdjPath (7/10) 2 0 j2 = 1 :=
  build_kernel_nonneg_rows_sum_one exAdjPath (7/10) (by norm_num) (by norm_num)
    (by decide) 2 0 2

/-! ### The recorded `network_kernel_propagation` failure (claim C1)

The notebook records the crash of a full run: `NBS_single` calls
`network_kernel_propagation`, whose line 97 (visible in the recorded
traceback) is

  `prop_data = np.dot(binary_matrix.T.loc[prop_nodelist].fillna(0).T,`
  `                   network_kernel.loc[prop_nodelist][prop_nodelist])`

and the run aborts with the pandas error
`KeyError: "None of [Index([...], name='Gene_Name', length=2291)] are in the [index]"`.
We embed the dataframe level: a labelled matrix, pandas label-based `.loc`
selection — which raises `KeyError` when requested labels are missing from
the index instead of reporting per-gene errors — and the per-component
multiply-and-reassemble loop of the traceback. -/

/-- The error taxonomy of the spec plus the unhandled pandas lookup error the
recorded run actually dies with. -/
inductive PyNBSError where
  | invalidParameter : PyNBSError
  | dataMismatch : PyNBSError
  | keyError : PyNBSError
deriving DecidableEq

/-- A pandas-style labelled matrix: row labels, column labels, and entries
addressed by label. -/
structure LMat where
  rows : List ℕ
  cols : List ℕ
  entry : ℕ → ℕ → ℚ

/-- Pandas `df.loc[labels]` row selection: if any requested label is missing
from the row index the whole lookup raises `KeyError` (no per-label report,
no partial result) — this is the behaviour recorded in the traceback. -/
def loc_rows (m : LMat) (labels : List ℕ) : Except PyNBSError LMat :=
  if labels.all fun g => m.rows.contains g then
    Except.ok ⟨labels, m.cols, m.entry⟩
  else Except.error PyNBSError.keyError

/-- Pandas `df[labels]` column selection, with the same `KeyError` behaviour. -/
def loc_cols (m : LMat) (labels : List ℕ) : Except PyNBSError LMat :=
  if labels.all fun g => m.cols.contains g then
    Except.ok ⟨m.rows, labels, m.entry⟩
  else Except.error PyNBSError.keyError

/-- `df.T`. -/
def ltranspose (m : LMat) : LMat := ⟨m.cols, m.rows, fun i j => m.entry j i⟩

/-- `np.dot` on two labelled matrices whose inner labels coincide on the
success path (summation over the left operand's column labels). -/
def ldot (a b : LMat) : LMat :=
  ⟨a.rows, b.cols, fun i j => (a.cols.map fun x => a.entry i x * b.entry x j).sum⟩

/-- One iteration of the loop in `network_kernel_propagation`
(`network_propagation.py` line 97, as recorded in the traceback):
`np.dot(binary_matrix.T.loc[nodelist].fillna(0).T, kernel.loc[nodelist][nodelist])`. -/
def propagate_subgraph (kernel binary : LMat) (nodelist : List ℕ) :
    Except PyNBSError LMat := do
  let sub ← loc_rows (ltranspose binary) nodelist
  let krows ← loc_rows kernel nodelist
  let ksub ← loc_cols krows nodelist
  Except.ok (ldot (ltranspose sub) ksub)

/-- Horizontal concatenation of the per-component result blocks
(`pd.concat(..., axis=1)`). -/
def lconcat (ms : List LMat) : LMat :=
  ⟨ms.head?.elim [] LMat.rows,
   (ms.map LMat.cols).flatten,
   fun i j => (ms.find? fun m => m.cols.contains j).elim 0 fun m => m.entry i j⟩

/-- Dataframe-level `network_kernel_propagation`: propagate every component
node list and re-assemble; the first missing gene label aborts the whole call
with the unhandled `KeyError` seen in the notebook. -/
def network_kernel_propagation_df (subgraph_nodelists : List (List ℕ))
    (kernel binary : LMat) : Except PyNBSError LMat := do
  let blocks ← subgraph_nodelists.mapM (propagate_subgraph kernel binary)
  Except.ok (lconcat blocks)

/-- The kernel of the recorded run, shrunk to two graph genes `0, 1`. -/
def exKernelDf : LMat := ⟨[0, 1], [0, 1], fun i j => if i = j then 1 else 0⟩

/-- A mutation matrix whose gene index shares no label with the graph
(patient `100`, gene `5`) — the shape of the recorded crash, where none of
the component's 2291 genes were in the signal's index. -/
def exBinaryDisjoint : LMat := ⟨[100], [5], fun _ _ => 1⟩

/-- A mutation matrix covering only one of the two graph genes — pandas also
raises `KeyError` when merely some requested labels are missing. -/
def exBinaryPartial : LMat := ⟨[100], [0, 5], fun _ _ => 1⟩

/-- C1 (code bug, evaluated at the failing input): with a signal matrix whose
gene index does not contain every gene of the graph component, the embedded
`network_kernel_propagation` aborts with an unhandled `KeyError` — it neither
produces a defined output row for the graph genes that the caller requested
nor reports the absent genes explicitly, exactly as in the notebook's recorded
run.  Both the no-overlap case (the recorded message) and the partial-overlap
case die the same way. -/
theorem kernel_propagation_unhandled_keyerror :
    network_kernel_propagation_df [[0, 1]] exKernelDf exBinaryDisjoint
        = Except.error PyNBSError.keyError
      ∧ network_kernel_propagation_df [[0, 1]] exKernelDf exBinaryPartial
        = Except.error PyNBSError.keyError := ⟨rfl, rfl⟩

end PyNBS

namespace PyNBS

/-! ### Graph-regularized non-negative matrix factorization (claims C5, C6)

Modelled from the spec: `mixed_netNMF` (`pyNBS_core.py` is not in the
repository snapshot).  The data matrix `X` has `m` rows and `q` columns, the
factors are `W : m x k` and `H : k x q`; the optional Laplacian `L = D - A`
regularizes the `H` factor (the spec's `trace(H L H^T)` term) through
multiplicative updates with the additive correction in the `H` update: the
adjacency part `A` of `L` enters the numerator and the degree part `D` the
denominator, a small `eps` is added to every denominator, and negative
intermediate values are clamped to zero after each update. -/

variable {m k q : ℕ}

/-- Degree (diagonal) part of an optional Laplacian; `none` disables the
regularization term. -/
def glapDiag : Option (Matrix (Fin q) (Fin q) ℚ) → Matrix (Fin q) (Fin q) ℚ
  | none => 0
  | some L => Matrix.diagonal fun j => L j j

/-- Adjacency (off-diagonal) part of an optional Laplacian `L = D - A`. -/
def glapAdj : Option (Matrix (Fin q) (Fin q) ℚ) → Matrix (Fin q) (Fin q) ℚ
  | none => 0
  | some L => Matrix.diagonal (fun j => L j j) - L

/-- Modelled from the spec: the plain multiplicative `W` update (reconstruction
term only), with epsilon-guarded denominator and clamping. -/
def plain_W_update (X : Matrix (Fin m) (Fin q) ℚ) (W : Matrix (Fin m) (Fin k) ℚ)
    (H : Matrix (Fin k) (Fin q) ℚ) (eps : ℚ) : Matrix (Fin m) (Fin k) ℚ :=
  Matrix.of fun i a =>
    max 0 (W i a * ((X * H.transpose) i a) / ((W * H * H.transpose) i a + eps))

/-- Modelled from the spec: the plain multiplicative `H` update. -/
def plain_H_update (X : Matrix (Fin m) (Fin q) ℚ) (W : Matrix (Fin m) (Fin k) ℚ)
    (H : Matrix (Fin k) (Fin q) ℚ) (eps : ℚ) : Matrix (Fin k) (Fin q) ℚ :=
  Matrix.of fun a j =>
    max 0 (H a j * ((W.transpose * X) a j) / ((W.transpose * W * H) a j + eps))

/-- Modelled from the spec: the regularized `H` update of `mixed_netNMF`, with
the Laplacian's additive correction (`A` in the numerator scaled by the weight
`lam`, `D` in the denominator). -/
def mixed_H_update (X : Matrix (Fin m) (Fin q) ℚ) (W : Matrix (Fin m) (Fin k) ℚ)
    (H : Matrix (Fin k) (Fin q) ℚ) (glap : Option (Matrix (Fin q) (Fin q) ℚ))
    (lam eps : ℚ) : Matrix (Fin k) (Fin q) ℚ :=
  Matrix.of fun a j =>
    max 0 (H a j * (((W.transpose * X) a j + lam * ((H * glapAdj glap) a j))
      / ((W.transpose * W * H) a j + lam * ((H * glapDiag glap) a j) + eps)))

/-- Modelled from the spec: plain multiplicative-update NMF, iterated `t`
times from the (non-negative, randomly drawn in the source) initial factors. -/
def plain_NMF (X : Matrix (Fin m) (Fin q) ℚ) (eps : ℚ)
    (W0 : Matrix (Fin m) (Fin k) ℚ) (H0 : Matrix (Fin k) (Fin q) ℚ) :
    ℕ → Matrix (Fin m) (Fin k) ℚ × Matrix (Fin k) (Fin q) ℚ
  | 0 => (W0, H0)
  | t + 1 =>
    let WH := plain_NMF X eps W0 H0 t
    let W2 := plain_W_update X WH.1 WH.2 eps
    (W2, plain_H_update X W2 WH.2 eps)

/-- Modelled from the spec: `mixed_netNMF` — the graph-regularized
multiplicative-update solver; `glap = none` corresponds to
`regNet_glap = None`. -/
def mixed_netNMF (X : Matrix (Fin m) (Fin q) ℚ)
    (glap : Option (Matrix (Fin q) (Fin q) ℚ)) (lam eps : ℚ)
    (W0 : Matrix (Fin m) (Fin k) ℚ) (H0 : Matrix (Fin k) (Fin q) ℚ) :
    ℕ → Matrix (Fin m) (Fin k) ℚ × Matrix (Fin k) (Fin q) ℚ
  | 0 => (W0, H0)
  | t + 1 =>
    let WH := mixed_netNMF X glap lam eps W0 H0 t
    let W2 := plain_W_update X WH.1 WH.2 eps
    (W2, mixed_H_update X W2 WH.2 glap lam eps)

/-- C5: for every data matrix, Laplacian, regularization weight, epsilon and
(non-negative) initialization, the factors `W` and `H` returned by
`mixed_netNMF` contain no negative entry at any iteration. -/
theorem mixed_netNMF_nonneg (X : Matrix (Fin m) (Fin q) ℚ)
    (glap : Option (Matrix (Fin q) (Fin q) ℚ)) (lam eps : ℚ)
    (W0 : Matrix (Fin m) (Fin k) ℚ) (H0 : Matrix (Fin k) (Fin q) ℚ)
    (hW0 : ∀ i a, 0 ≤ W0 i a) (hH0 : ∀ a j, 0 ≤ H0 a j)
    (t : ℕ) (i : Fin m) (a : Fin k) (j : Fin q) :
    0 ≤ (mixed_netNMF X glap lam eps W0 H0 t).1 i a
      ∧ 0 ≤ (mixed_netNMF X glap lam eps W0 H0 t).2 a j := by
  cases t with
  | zero => exact ⟨hW0 i a, hH0 a j⟩
  | succ t => exact ⟨le_max_left 0 _, le_max_left 0 _⟩

/-- C5 witness data: a concrete 1x1 problem with all-ones factors. -/
def exX11 : Matrix (Fin 1) (Fin 1) ℚ := Matrix.of fun _ _ => 1

theorem mixed_netNMF_nonneg_witness :
    0 ≤ (mixed_netNMF exX11 (some exX11) 2 (1/1000) exX11 exX11 3).1 0 0
      ∧ 0 ≤ (mixed_netNMF exX11 (some exX11) 2 (1/1000) exX11 exX11 3).2 0 0 :=
  mixed_netNMF_nonneg exX11 (some exX11) 2 (1/1000) exX11 exX11
    (fun _ _ => by norm_num [exX11]) (fun _ _ => by norm_num [exX11]) 3 0 0 0

/-- With no Laplacian the regularized `H` update collapses to the plain one. -/
lemma mixed_H_update_none (X : Matrix (Fin m) (Fin q) ℚ)
    (W : Matrix (Fin m) (Fin k) ℚ) (H : Matrix (Fin k) (Fin q) ℚ) (lam eps : ℚ) :
    mixed_H_update X W H none lam eps = plain_H_update X W H eps := by
  ext a j
  simp [mixed_H_update, plain_H_update, glapDiag, glapAdj, mul_div_assoc]

/-- With weight zero the regularized `H` update collapses to the plain one. -/
lemma mixed_H_update_lam_zero (X : Matrix (Fin m) (Fin q) ℚ)
    (W : Matrix (Fin m) (Fin k) ℚ) (H : Matrix (Fin k) (Fin q) ℚ)
    (glap : Option (Matrix (Fin q) (Fin q) ℚ)) (eps : ℚ) :
    mixed_H_update X W H glap 0 eps = plain_H_update X W H eps := by
  ext a j
  simp [mixed_H_update, plain_H_update, mul_div_assoc]

/-- C6: with no graph Laplacian (`regNet_glap = None`) — and likewise with
regularization weight `lam = 0` — `mixed_netNMF` reduces exactly to standard
multiplicative-update NMF: every iterate of the regularized solver equals the
corresponding plain-NMF iterate. -/
theorem mixed_netNMF_none_eq_plain (X : Matrix (Fin m) (Fin q) ℚ)
    (L : Matrix (Fin q) (Fin q) ℚ) (lam eps : ℚ)
    (W0 : Matrix (Fin m) (Fin k) ℚ) (H0 : Matrix (Fin k) (Fin q) ℚ) (t : ℕ) :
    mixed_netNMF X none lam eps W0 H0 t = plain_NMF X eps W0 H0 t
      ∧ mixed_netNMF X (some L) 0 eps W0 H0 t = plain_NMF X eps W0 H0 t := by
  induction t with
  | zero => exact ⟨rfl, rfl⟩
  | succ t ih =>
    constructor
    · show (_, mixed_H_update _ _ _ none lam eps) = _
      rw [mixed_H_update_none, ih.1]
      rfl
    · show (_, mixed_H_update _ _ _ (some L) 0 eps) = _
      rw [mixed_H_update_lam_zero, ih.2]
      rfl

end PyNBS

namespace PyNBS

/-! ### Consensus clustering (claims C7, C8)

Modelled from the spec: `consensus_hclust_hard` (`consensus_clustering.py` is
not in the repository snapshot).  An iteration's hard clustering assigns each
subsampled patient a cluster label; patients outside the iteration's
subsample carry no label.  The Consensus Matrix is the element-wise ratio of
the co-clustering count and the co-sampling count, with unit diagonal by
construction and with zero-co-sampling entries explicitly defined as `0`
rather than produced by a division by zero. -/

variable {nP kc : ℕ}

/-- One iteration's hard cluster assignment: `none` marks a patient absent
from that iteration's subsample. -/
abbrev Assign (nP kc : ℕ) : Type := Fin nP → Option (Fin kc)

/-- Both patients present in the iteration's subsample. -/
def coSampleB (pa qa : Fin nP) (a : Assign nP kc) : Bool :=
  (a pa).isSome && (a qa).isSome

/-- Both patients present and placed in the same cluster. -/
def coClusterB (pa qa : Fin nP) (a : Assign nP kc) : Bool :=
  (a pa).isSome && decide (a pa = a qa)

/-- Number of iterations in which both patients were subsampled together. -/
def coSampleCount (l : List (Assign nP kc)) (pa qa : Fin nP) : ℕ :=
  l.countP (coSampleB pa qa)

/-- Number of iterations in which both patients landed in the same cluster. -/
def coClusterCount (l : List (Assign nP kc)) (pa qa : Fin nP) : ℕ :=
  l.countP (coClusterB pa qa)

/-- Modelled from the spec: the Consensus Matrix built by
`consensus_hclust_hard` from the list of per-iteration assignments. -/
def consensus_hclust_hard (l : List (Assign nP kc)) (pa qa : Fin nP) : ℚ :=
  if pa = qa then 1
  else if coSampleCount l pa qa = 0 then 0
  else (coClusterCount l pa qa : ℚ) / (coSampleCount l pa qa : ℚ)

lemma coSampleB_symm (pa qa : Fin nP) (a : Assign nP kc) :
    coSampleB pa qa a = coSampleB qa pa a := by
  simp [coSampleB, Bool.and_comm]

lemma coClusterB_symm (pa qa : Fin nP) (a : Assign nP kc) :
    coClusterB pa qa a = coClusterB qa pa a := by
  rcases h1 : a pa with _ | cp <;> rcases h2 : a qa with _ | cq <;>
    simp [coClusterB, h1, h2, eq_comm]

lemma coCluster_le_coSample (l : List (Assign nP kc)) (pa qa : Fin nP) :
    coClusterCount l pa qa ≤ coSampleCount l pa qa := by
  refine List.countP_mono_left fun a _ h => ?_
  rcases h1 : a pa with _ | cp <;> rcases h2 : a qa with _ | cq <;>
    simp_all [coClusterB, coSampleB, h1, h2]

/-- C7: the Consensus Matrix is symmetric, has unit diagonal by construction
(independent of any rounding), every entry lies in `[0,1]`, and an off-
diagonal entry whose co-sampling count is zero is explicitly `0` rather than
the result of a division by zero. -/
theorem consensus_matrix_invariants (l : List (Assign nP kc)) (pa qa : Fin nP) :
    consensus_hclust_hard l pa qa = consensus_hclust_hard l qa pa
      ∧ consensus_hclust_hard l pa pa = 1
      ∧ 0 ≤ consensus_hclust_hard l pa qa
      ∧ consensus_hclust_hard l pa qa ≤ 1
      ∧ (coSampleCount l pa qa = 0 → pa ≠ qa → consensus_hclust_hard l pa qa = 0) := by
  have hsymS : coSampleCount l pa qa = coSampleCount l qa pa :=
    List.countP_congr fun a _ => by rw [coSampleB_symm pa qa a]
  have hsymC : coClusterCount l pa qa = coClusterCount l qa pa :=
    List.countP_congr fun a _ => by rw [coClusterB_symm pa qa a]
  refine ⟨?_, ?_, ?_, ?_, ?_⟩
  · unfold consensus_hclust_hard
    rw [hsymS, hsymC]
    by_cases h : pa = qa <;> simp [h, eq_comm]
  · simp [consensus_hclust_hard]
  · unfold consensus_hclust_hard
    split
    · norm_num
    · split
      · norm_num
      · positivity
  · unfold consensus_hclust_hard
    split
    · norm_num
    · split
      · norm_num
      · rename_i h0
        rw [div_le_one (by positivity)]
        exact_mod_cast coCluster_le_coSample l pa qa
  · intro h0 hne
    simp [consensus_hclust_hard, hne, h0]

/-- An example iteration list over two patients: the first iteration samples
only patient `0`, so patients `0` and `1` are never co-sampled. -/
def exAssigns : List (Assign 2 2) :=
  [fun pa => if pa = 0 then some 0 else none]

theorem consensus_matrix_invariants_witness :
    consensus_hclust_hard exAssigns 0 1 = 0 :=
  (consensus_matrix_invariants exAssigns 0 1).2.2.2.2 (by decide) (by decide)

/-- C8: consensus aggregation is order-independent (and in particular
deterministic): any permutation of the per-iteration assignment list yields
the identical Consensus Matrix. -/
theorem consensus_matrix_perm_invariant (l1 l2 : List (Assign nP kc))
    (hperm : l1.Perm l2) (pa qa : Fin nP) :
    consensus_hclust_hard l1 pa qa = consensus_hclust_hard l2 pa qa := by
  have hS : coSampleCount l1 pa qa = coSampleCount l2 pa qa := hperm.countP_eq _
  have hC : coClusterCount l1 pa qa = coClusterCount l2 pa qa := hperm.countP_eq _
  unfold consensus_hclust_hard
  rw [hS, hC]

/-- Two concrete iterations over two patients. -/
def exAssignA : Assign 2 2 := fun pa => if pa = 0 then some 0 else some 1

/-- A second concrete iteration, clustering both patients together. -/
def exAssignB : Assign 2 2 := fun _ => some 0

theorem consensus_matrix_perm_invariant_witness :
    consensus_hclust_hard [exAssignA, exAssignB] 0 1
      = consensus_hclust_hard [exAssignB, exAssignA] 0 1 :=
  consensus_matrix_perm_invariant [exAssignA, exAssignB] [exAssignB, exAssignA]
    (List.Perm.swap exAssignB exAssignA []) 0 1

end PyNBS

namespace PyNBS

/-! ### KNN graph Laplacian builder (claim C9)

Modelled from the spec: `network_inf_KNN_glap` (`pyNBS_core.py` is not in the
repository snapshot).  Given a gene-by-gene influence matrix, each gene's `K`
most similar neighbours form a directed KNN graph (ties broken by the fixed
total order on gene indices), which is symmetrized; the builder returns the
Laplacian `L = D - A`.  Configuration demands `K` be a positive integer
strictly below the number of genes; `K` at or above the gene count fails with
`InvalidParameter` before any computation instead of silently clamping. -/

variable {n : ℕ}

/-- How many candidate neighbours of gene `i` rank strictly better than `j`
(higher similarity, or equal similarity and smaller index — the documented
deterministic tie-break). -/
def knnRank (sim : Matrix (Fin n) (Fin n) ℚ) (i j : Fin n) : ℕ :=
  (Finset.univ.filter fun j2 => j2 ≠ i ∧
    (sim i j < sim i j2 ∨ (sim i j2 = sim i j ∧ j2 < j))).card

/-- Symmetrized KNN adjacency: `j` is among the `K` nearest neighbours of `i`
or vice versa. -/
def knnAdjb (sim : Matrix (Fin n) (Fin n) ℚ) (K : ℕ) (i j : Fin n) : Bool :=
  decide (i ≠ j ∧ (knnRank sim i j < K ∨ knnRank sim j i < K))

/-- The KNN graph Laplacian `L = D - A` of the symmetrized KNN graph. -/
def knnGlapMat (sim : Matrix (Fin n) (Fin n) ℚ) (K : ℕ) :
    Matrix (Fin n) (Fin n) ℚ :=
  Matrix.of fun i j =>
    if i = j then ((Finset.univ.filter fun j2 => knnAdjb sim K i j2 = true).card : ℚ)
    else if knnAdjb sim K i j then -1 else 0

/-- Modelled from the spec: `network_inf_KNN_glap` with its entry validation
of the neighbour count. -/
def network_inf_KNN_glap (sim : Matrix (Fin n) (Fin n) ℚ) (K : ℕ) :
    Except PyNBSError (Matrix (Fin n) (Fin n) ℚ) :=
  if n ≤ K then Except.error PyNBSError.invalidParameter
  else Except.ok (knnGlapMat sim K)

/-- C9: calling the KNN Laplacian builder with a neighbour count at or above
the number of genes fails with `InvalidParameter` before any computation —
and only then: for `K` below the gene count the builder returns the
Laplacian, so the failure is a validation, not a silent clamp. -/
theorem knn_glap_invalid_parameter (sim : Matrix (Fin n) (Fin n) ℚ) (K : ℕ) :
    (n ≤ K → network_inf_KNN_glap sim K = Except.error PyNBSError.invalidParameter)
      ∧ (K < n → network_inf_KNN_glap sim K = Except.ok (knnGlapMat sim K)) := by
  constructor
  · intro h
    simp [network_inf_KNN_glap, h]
  · intro h
    simp [network_inf_KNN_glap, not_le.mpr h]

/-- A concrete 2-gene similarity matrix. -/
def exSim2 : Matrix (Fin 2) (Fin 2) ℚ := Matrix.of fun i j => (i : ℚ) + (j : ℚ)

theorem knn_glap_invalid_parameter_witness :
    network_inf_KNN_glap exSim2 2 = Except.error PyNBSError.invalidParameter :=
  (knn_glap_invalid_parameter exSim2 2).1 (by norm_num)

end PyNBS

namespace PyNBS

/-! ### Cancer subnetwork construction (claim C10)

From `Cancer Subnetwork Construction.ipynb` (code present in the repository):

  `cancer_genes = list(set(all_hallmark_genes_symbol + Vogelstein_genes`
  `                        + Sanger_genes + COSMIC_genes))`
  `cancer_subnetwork = network.subgraph(cancer_genes)`
  `gct.write_edgelist(cancer_subnetwork.edges(), ..., binary=True)`

Gene symbols are strings; `set(...)` removes duplicates (we keep first
occurrences, which preserves membership); `Graph.subgraph(nodes)` keeps
exactly the edges of the input network with both endpoints among the given
nodes; `write_edgelist` writes those edges out unchanged. -/

/-- The combined cancer gene list: the set union of the four source lists. -/
def cancer_genes (l1 l2 l3 l4 : List String) : List String :=
  (l1 ++ l2 ++ l3 ++ l4).dedup

/-- `network.subgraph(nodes).edges()`: the input edges with both endpoints in
the node list. -/
def subgraph_edges (edges : List (String × String)) (nodes : List String) :
    List (String × String) :=
  edges.filter fun e => decide (e.1 ∈ nodes) && decide (e.2 ∈ nodes)

/-- `gct.write_edgelist` modelled as the list of edges it writes to file. -/
def write_edgelist (edges : List (String × String)) : List (String × String) :=
  edges

/-- C10: the combined cancer gene list has no duplicate symbols and is
exactly the union of the four source lists; every edge written to the output
edge list is an edge of the loaded input network with both endpoints in the
cancer gene list — the subgraph operation adds no nodes or edges, and genes
outside the cancer gene list never appear in the output. -/
theorem cancer_subnetwork_construction (l1 l2 l3 l4 : List String)
    (edges : List (String × String)) :
    (cancer_genes l1 l2 l3 l4).Nodup
      ∧ (∀ g, g ∈ cancer_genes l1 l2 l3 l4 ↔ g ∈ l1 ∨ g ∈ l2 ∨ g ∈ l3 ∨ g ∈ l4)
      ∧ (∀ e ∈ write_edgelist (subgraph_edges edges (cancer_genes l1 l2 l3 l4)),
          e ∈ edges ∧ e.1 ∈ cancer_genes l1 l2 l3 l4
            ∧ e.2 ∈ cancer_genes l1 l2 l3 l4) := by
  refine ⟨List.nodup_dedup _, ?_, ?_⟩
  · intro g
    simp [cancer_genes, List.mem_dedup, List.mem_append, or_assoc]
  · intro e he
    have he2 := List.mem_filter.mp he
    refine ⟨he2.1, ?_, ?_⟩
    · have := he2.2
      simp only [Bool.and_eq_true, decide_eq_true_eq] at this
      exact this.1
    · have := he2.2
      simp only [Bool.and_eq_true, decide_eq_true_eq] at this
      exact this.2

/-- Concrete gene lists and network for the C10 witness. -/
def exHallmark : List String := ["TP53", "MYC"]

/-- Vogelstein list for the witness, overlapping the hallmark list. -/
def exVogelstein : List String := ["TP53", "MDM2"]

/-- Sanger list for the witness. -/
def exSanger : List String := []

/-- COSMIC list for the witness. -/
def exCOSMIC : List String := ["MDM2"]

/-- Input network edges for the witness: one edge inside the cancer gene
list, one leaving it. -/
def exEdges : List (String × String) := [("TP53", "MDM2"), ("TP53", "EGFR")]

theorem cancer_subnetwork_construction_witness :
    ("TP53", "MDM2") ∈ exEdges
      ∧ "TP53" ∈ cancer_genes exHallmark exVogelstein exSanger exCOSMIC
      ∧ "MDM2" ∈ cancer_genes exHallmark exVogelstein exSanger exCOSMIC :=
  (cancer_subnetwork_construction exHallmark exVogelstein exSanger exCOSMIC
    exEdges).2.2 ("TP53", "MDM2") (by decide)

end PyNBS
